import Mathlib

/-!
# Verification of the JState `AppState` batching engine and form binder

Shallow embedding of the JState library (state-change batching and
propagation engine).  JavaScript objects used as string-keyed records are
modelled as association lists in property-insertion order (the order of a
`for..in` / `hasOwnProperty` walk for non-index string keys); JavaScript
values are modelled by `JSValue`, with reference values (objects, arrays,
functions) identified by a numeric identity so that strict equality `===`
is reference equality on them, and with `NaN` as a value that is not
strictly equal to itself.  Handler functions are opaque: a flush records
the invocations it performs (key, new value, old value) in a trace rather
than running caller code.  The deferred-flush scheduler (`setTimeout` /
`clearTimeout` with zero delay) is modelled by a `World` carrying the set
of live (scheduled, uncancelled) timeout tokens and a fresh-token counter;
firing a live token runs the flush callback, and firing a cancelled or
already-fired token is a no-op.
-/

/-- A JavaScript runtime value, as far as the `AppState` engine observes
them.  `ref` stands for any non-function reference value (plain object,
array, ...) identified by its reference identity; `func` stands for a
function value identified by its reference identity.  `nan` is the NaN
number, kept separate because it is not strictly equal to itself. -/
inductive JSValue where
  | undefV : JSValue
  | null : JSValue
  | boolV (b : Bool) : JSValue
  | num (n : Int) : JSValue
  | nan : JSValue
  | str (s : String) : JSValue
  | func (id : Nat) : JSValue
  | ref (id : Nat) : JSValue
deriving DecidableEq, Repr

/-- JavaScript strict equality `===` on modelled values: structural on
primitives, reference identity on reference values, and `NaN !== NaN`. -/
def jsStrictEq : JSValue → JSValue → Bool
  | .undefV, .undefV => true
  | .null, .null => true
  | .boolV a, .boolV b => a == b
  | .num a, .num b => a == b
  | .str a, .str b => a == b
  | .func a, .func b => a == b
  | .ref a, .ref b => a == b
  | _, _ => false

/-- JavaScript truthiness of a modelled value. -/
def JSValue.truthy : JSValue → Bool
  | .undefV => false
  | .null => false
  | .boolV b => b
  | .num n => n != 0
  | .nan => false
  | .str s => s != ""
  | .func _ => true
  | .ref _ => true

/-- `isFunction(obj)` from the source's utility block
(`Object.prototype.toString` tag is `[object Function]`). -/
def JSValue.isFunction : JSValue → Bool
  | .func _ => true
  | _ => false

/-- `isNull(obj)` from the source's utility block. -/
def JSValue.isNull : JSValue → Bool
  | .null => true
  | _ => false

/-- `isUndefined(obj)` from the source's utility block. -/
def JSValue.isUndefined : JSValue → Bool
  | .undefV => true
  | _ => false

/-- A JavaScript object used as a string-keyed record, in property
insertion order. -/
abbrev JSObj := List (String × JSValue)

/-- The property keys of an object, in iteration order. -/
def objKeys (o : JSObj) : List String := o.map Prod.fst

/-- Property lookup, `none` when the key is absent. -/
def objFind (o : JSObj) (k : String) : Option JSValue :=
  match o with
  | [] => none
  | (k', v) :: rest => if k' = k then some v else objFind rest k

/-- Property read `o[k]`: an absent property reads as `undefined`. -/
def objGet (o : JSObj) (k : String) : JSValue :=
  (objFind o k).getD .undefV

/-- Whether the object has the property `k`. -/
def objHas (o : JSObj) (k : String) : Bool :=
  (objFind o k).isSome

/-- Property write `o[k] = v`: an existing property is updated in place
(keeping its position in iteration order), a new property is appended. -/
def objSet (o : JSObj) (k : String) (v : JSValue) : JSObj :=
  match o with
  | [] => [(k, v)]
  | (k', v') :: rest => if k' = k then (k', v) :: rest else (k', v') :: objSet rest k v

/-- Property deletion `delete o[k]`. -/
def objDel (o : JSObj) (k : String) : JSObj :=
  o.filter (fun p => p.1 ≠ k)

theorem objFind_objSet (o : JSObj) (k : String) (v : JSValue) (k' : String) :
    objFind (objSet o k v) k' = if k = k' then some v else objFind o k' := by
  induction o with
  | nil =>
    by_cases h : k = k' <;> simp [objSet, objFind, h]
  | cons p rest ih =>
    obtain ⟨k0, v0⟩ := p
    by_cases h0 : k0 = k
    · subst h0
      by_cases h1 : k0 = k' <;> simp [objSet, objFind, h1]
    · by_cases h1 : k0 = k'
      · subst h1
        have hkk : ¬ k = k0 := fun h => h0 h.symm
        simp [objSet, objFind, h0, hkk]
      · simp [objSet, objFind, h0, h1, ih]

theorem objFind_objSet_self (o : JSObj) (k : String) (v : JSValue) :
    objFind (objSet o k v) k = some v := by
  simp [objFind_objSet]

theorem objFind_objSet_ne (o : JSObj) (k : String) (v : JSValue) (k' : String)
    (h : k ≠ k') : objFind (objSet o k v) k' = objFind o k' := by
  simp [objFind_objSet, h]

theorem objKeys_objSet (o : JSObj) (k : String) (v : JSValue) :
    objKeys (objSet o k v) = if k ∈ objKeys o then objKeys o else objKeys o ++ [k] := by
  induction o with
  | nil => simp [objSet, objKeys]
  | cons p rest ih =>
    obtain ⟨k0, v0⟩ := p
    by_cases h0 : k0 = k
    · subst h0
      simp [objSet, objKeys]
    · have hne : ¬ k = k0 := fun h => h0 h.symm
      have hstep : objSet ((k0, v0) :: rest) k v = (k0, v0) :: objSet rest k v := by
        simp [objSet, h0]
      rw [hstep]
      by_cases hk : k ∈ objKeys rest
      · simp only [objKeys, List.map_cons] at ih ⊢
        simp only [objKeys] at hk
        simp [hk, hne, ih]
      · simp only [objKeys, List.map_cons] at ih ⊢
        simp only [objKeys] at hk
        simp [hk, hne, ih]

theorem objKeys_nodup_objSet (o : JSObj) (k : String) (v : JSValue)
    (h : (objKeys o).Nodup) : (objKeys (objSet o k v)).Nodup := by
  rw [objKeys_objSet]
  by_cases hk : k ∈ objKeys o
  · simpa [hk]
  · simpa [hk, List.nodup_append] using h

theorem objFind_eq_none_of_not_mem (o : JSObj) (k : String)
    (h : k ∉ objKeys o) : objFind o k = none := by
  induction o with
  | nil => rfl
  | cons p rest ih =>
    obtain ⟨k0, v0⟩ := p
    simp only [objKeys, List.map_cons, List.mem_cons, not_or] at h
    have h2 : k ∉ objKeys rest := by
      simpa [objKeys] using h.2
    have hne : ¬ k0 = k := fun hx => h.1 hx.symm
    simp [objFind, hne, ih h2]

/-- An argument passed to `AppState` entry points (`constructor`,
`setState`, `applyState`).  A plain object argument carries its own
properties; every other shape only matters through the `isObject` test. -/
inductive JSArg where
  | obj (fields : JSObj) : JSArg
  | arr (elems : List JSValue) : JSArg
  | strA (s : String) : JSArg
  | numA (n : Int) : JSArg
  | nanA : JSArg
  | boolA (b : Bool) : JSArg
  | nullA : JSArg
  | undefA : JSArg
  | funcA (id : Nat) : JSArg
deriving DecidableEq, Repr

/-- `isObject(obj)` from the source's utility block: the
`Object.prototype.toString` tag is `[object Object]` exactly for plain
objects (not arrays, strings, functions, null, undefined, numbers). -/
def JSArg.isObject : JSArg → Bool
  | .obj _ => true
  | _ => false

/-- One handler invocation performed during a flush:
`stateApplierFunctionMap[key](newValue, oldValue)`. -/
structure Invocation where
  key : String
  newValue : JSValue
  oldValue : JSValue
deriving DecidableEq, Repr

/-- The `AppState` instance fields, as set up by the constructor. -/
structure AppState where
  stateApplierFunctionMap : JSObj
  changeVerifierMap : JSObj
  state : JSObj
  nextStateChanges : JSObj
  applierTimeout : Option Nat
deriving DecidableEq, Repr

/-- The registry update performed by `AppState.addHandler(name, func)`:
store `func` when it is a function, behave as `removeHandler(name)` when
it is null or undefined, and do nothing otherwise. -/
def addHandlerMap (m : JSObj) (name : String) (func : JSValue) : JSObj :=
  if func.isFunction then objSet m name func
  else if func.isNull || func.isUndefined then objDel m name
  else m

/-- `AppState.addHandler(name, func)` (the method always returns `this`). -/
def AppState.addHandler (a : AppState) (name : String) (func : JSValue) : AppState :=
  { a with stateApplierFunctionMap := addHandlerMap a.stateApplierFunctionMap name func }

/-- `AppState.removeHandler(name)`. -/
def AppState.removeHandler (a : AppState) (name : String) : AppState :=
  { a with stateApplierFunctionMap := objDel a.stateApplierFunctionMap name }

/-- `new AppState(funcMap)`: throws (`Except.error`) when `funcMap` is not
a plain object, before any field of the instance is set up; otherwise
initializes every field empty and registers each entry of `funcMap` via
`addHandler`. -/
def AppState.construct (funcMap : JSArg) : Except String AppState :=
  match funcMap with
  | .obj fields =>
      let init : AppState :=
        { stateApplierFunctionMap := []
          changeVerifierMap := []
          state := []
          nextStateChanges := []
          applierTimeout := none }
      .ok (fields.foldl (fun a p => a.addHandler p.1 p.2) init)
  | _ => .error "Expected object for state applier."

/-- The staging loop of `applyState`: for each own property `(key, value)`
of the argument, stage it into `nextStateChanges` when
`this.state[key] !== value`.  `st` is the committed state, which the loop
itself never modifies. -/
def stageFold (st : JSObj) (pending : JSObj) (fields : JSObj) : JSObj :=
  fields.foldl
    (fun p kv => if jsStrictEq (objGet st kv.1) kv.2 then p else objSet p kv.1 kv.2)
    pending

/-- One step of the flush callback's `each` loop over `nextStateChanges`:
when the key has a truthy entry in `stateApplierFunctionMap`, invoke the
handler with `(value, this.state[key])` (recorded in the trace) and then
commit `this.state[key] = value`; otherwise skip the key entirely. -/
def flushStep (acc : AppState × List Invocation) (kv : String × JSValue) :
    AppState × List Invocation :=
  let a := acc.1
  if (objGet a.stateApplierFunctionMap kv.1).truthy then
    ({ a with state := objSet a.state kv.1 kv.2 },
     acc.2 ++ [⟨kv.1, kv.2, objGet a.state kv.1⟩])
  else acc

/-- The body of the `setTimeout` callback installed by
`_STATETIMEOUTAPPLY`: walk `nextStateChanges`, invoke-and-commit each key
that has a registered handler, then reset `nextStateChanges` to `{}`.
Returns the updated instance and the handler-invocation trace. -/
def flushBody (a : AppState) : AppState × List Invocation :=
  let r := a.nextStateChanges.foldl flushStep (a, [])
  ({ r.1 with nextStateChanges := [] }, r.2)

/-- An `AppState` instance together with the scheduler: `live` is the list
of scheduled, uncancelled timeout tokens (each standing for one pending
flush callback of this instance), `nextToken` the fresh-token counter. -/
structure World where
  app : AppState
  live : List Nat
  nextToken : Nat
deriving DecidableEq, Repr

/-- `_STATETIMEOUTAPPLY` applied to the instance: when `applierTimeout` is
not null, `clearTimeout` it (drop it from the live tokens) and null the
field; then `setTimeout` a fresh flush callback and store its token in
`applierTimeout`. -/
def stateTimeoutApply (w : World) : World :=
  let w1 :=
    match w.app.applierTimeout with
    | some t =>
        { w with
            app := { w.app with applierTimeout := none }
            live := w.live.filter (fun t' => t' ≠ t) }
    | none => w
  { w1 with
      app := { w1.app with applierTimeout := some w1.nextToken }
      live := w1.live ++ [w1.nextToken]
      nextToken := w1.nextToken + 1 }

/-- `AppState.applyState(nextState)`: returns `(w, false)` (`undefined`)
without touching anything when the argument is not a plain object;
otherwise stages the differing keys, runs `_STATETIMEOUTAPPLY`, and
returns `this` (modelled by the `true` flag). -/
def World.applyState (w : World) (nextState : JSArg) : World × Bool :=
  match nextState with
  | .obj fields =>
      let app := { w.app with
        nextStateChanges := stageFold w.app.state w.app.nextStateChanges fields }
      (stateTimeoutApply { w with app := app }, true)
  | _ => (w, false)

/-- The staging loop of `AppState.touchState(...names)`: for each argument
that has a truthy entry in `stateApplierFunctionMap` (`registry`),
force-stage the current committed value `this.state[name]` (read from
`st`, which the loop never modifies) into the pending buffer. -/
def touchFold (registry st : JSObj) (pending : JSObj) (names : List String) : JSObj :=
  names.foldl
    (fun p n =>
      if (objGet registry n).truthy then objSet p n (objGet st n) else p)
    pending

/-- `AppState.touchState(...names)` continued: stage, then rearm. -/
def World.touchState (w : World) (names : List String) : World :=
  let changes := touchFold w.app.stateApplierFunctionMap w.app.state
    w.app.nextStateChanges names
  stateTimeoutApply { w with app := { w.app with nextStateChanges := changes } }

/-- `AppState.setState(nextState)`: returns `(w, false)` (`undefined`)
without touching anything when the argument is not a plain object;
otherwise merges every own property directly into `this.state` and
returns `this` (the `true` flag).  No diffing, no staging, no call to
`_STATETIMEOUTAPPLY`. -/
def World.setState (w : World) (nextState : JSArg) : World × Bool :=
  match nextState with
  | .obj fields =>
      ({ w with app := { w.app with
          state := fields.foldl (fun st kv => objSet st kv.1 kv.2) w.app.state } },
       true)
  | _ => (w, false)

/-- The event loop fires the timeout with token `t`: when `t` is still
live the flush callback runs (and the token is consumed); a cancelled or
already-fired token does nothing. -/
def fireTimer (w : World) (t : Nat) : World × List Invocation :=
  if t ∈ w.live then
    let r := flushBody w.app
    ({ w with app := r.1, live := w.live.filter (fun t' => t' ≠ t) }, r.2)
  else (w, [])

/-- One externally observable operation on a store within its event
loop. -/
inductive Op where
  | applyOp (arg : JSArg) : Op
  | touchOp (names : List String) : Op
  | setOp (arg : JSArg) : Op
  | addHandlerOp (name : String) (func : JSValue) : Op
  | removeHandlerOp (name : String) : Op
  | fireOp (t : Nat) : Op
deriving DecidableEq, Repr

/-- Run one operation, keeping the handler-invocation trace it caused. -/
def stepI (w : World) (op : Op) : World × List Invocation :=
  match op with
  | .applyOp arg => ((w.applyState arg).1, [])
  | .touchOp names => (w.touchState names, [])
  | .setOp arg => ((w.setState arg).1, [])
  | .addHandlerOp name func => ({ w with app := w.app.addHandler name func }, [])
  | .removeHandlerOp name => ({ w with app := w.app.removeHandler name }, [])
  | .fireOp t => fireTimer w t

/-- Run a sequence of operations (traces discarded). -/
def runOps (w : World) (ops : List Op) : World :=
  ops.foldl (fun w op => (stepI w op).1) w

/-- Specification-side characterization (per key) of one staging pass:
the value the `applyState` loop leaves for `k` in the pending buffer, if
the call stages `k` at all — i.e. the last own property `(k, v)` of the
argument with `st[k] !== v`. -/
def stagedVal (st : JSObj) (fields : JSObj) (k : String) : Option JSValue :=
  match fields with
  | [] => none
  | (k', v) :: rest =>
      (stagedVal st rest k).or
        (if k' = k then (if jsStrictEq (objGet st k) v then none else some v) else none)

/-- Specification-side characterization over a whole sequence of
`applyState` calls: the value staged for `k` by the last call that staged
it (committed state `st` is constant across the sequence, since only a
flush writes it). -/
def lastStaged (st : JSObj) (calls : List JSObj) (k : String) : Option JSValue :=
  match calls with
  | [] => none
  | c :: cs => (lastStaged st cs k).or (stagedVal st c k)

/-- Specification-side characterization (per key) of a direct merge: the
value of the last own property of `fields` with key `k`, if any. -/
def mergedVal (fields : JSObj) (k : String) : Option JSValue :=
  match fields with
  | [] => none
  | (k', v) :: rest => (mergedVal rest k).or (if k' = k then some v else none)

/-- A sequence of `applyState` calls with plain-object arguments issued
within one turn (no timeout fires in between). -/
def applyCalls (w : World) (calls : List JSObj) : World :=
  calls.foldl (fun w c => (w.applyState (.obj c)).1) w

/-- Scheduler half of the store invariant: the token remembered in
`applierTimeout` is older than the fresh-token counter. -/
def timeoutFresh (w : World) : Bool :=
  match w.app.applierTimeout with
  | none => true
  | some t => t < w.nextToken

/-- Scheduler half of the store invariant: at most one live scheduled
flush, and when one is live its token is the one in `applierTimeout`. -/
def liveMatchesTimeout (w : World) : Bool :=
  match w.live with
  | [] => true
  | [t] => w.app.applierTimeout == some t
  | _ :: _ :: _ => false

/-- The scheduler invariant maintained by every operation of the store. -/
def SchedInv (w : World) : Bool := timeoutFresh w && liveMatchesTimeout w

/-- Truthiness of a `getAttribute` result (`null` when the attribute is
absent, otherwise its string value): `!!attr`. -/
def attrTruthy (a : Option String) : Bool :=
  match a with
  | none => false
  | some s => s ≠ ""

/-- One `<option>` of a `<select>` element: its submit value, its visible
label, and whether it is currently selected.  Only `value` and `selected`
are consulted by the binder. -/
structure SelectOption where
  value : String
  label : String
  selected : Bool
deriving DecidableEq, Repr

/-- The slice of a `<select>` element observed by the `SELECTEVENT`
handler of `bindFormState`: its `name` and `multiple` attributes, its
options in document order, and its scalar `value`. -/
structure SelectElement where
  nameAttr : Option String
  multipleAttr : Option String
  options : List SelectOption
  value : String
deriving DecidableEq, Repr

/-- A member of the object maintained by `bindFormState`: a single string
value or (for a multiple select) an array of selected option values. -/
inductive FormValue where
  | single (s : String) : FormValue
  | multi (vs : List String) : FormValue
deriving DecidableEq, Repr

/-- The object maintained by `bindFormState`, in property insertion
order. -/
abbrev FormState := List (String × FormValue)

/-- Member lookup in the bound form-state object. -/
def fsFind (st : FormState) (k : String) : Option FormValue :=
  match st with
  | [] => none
  | (k', v) :: rest => if k' = k then some v else fsFind rest k

/-- Member write in the bound form-state object. -/
def fsSet (st : FormState) (k : String) (v : FormValue) : FormState :=
  match st with
  | [] => [(k, v)]
  | (k', v') :: rest => if k' = k then (k', v) :: rest else (k', v') :: fsSet rest k v

/-- The `change` handler `SELECTEVENT` that `bindFormState` attaches to
`<select>` fields: bail out when the `name` attribute is falsy; when the
`multiple` attribute is truthy store the values of the currently selected
options, in document order; otherwise store the element's scalar value.
(The optional `changeFunc` notification fired afterwards carries no state
effect and is not part of the modelled result.) -/
def SELECTEVENT (state : FormState) (element : SelectElement) : FormState :=
  if attrTruthy element.nameAttr then
    let memberName := element.nameAttr.getD ""
    if attrTruthy element.multipleAttr then
      fsSet state memberName
        (.multi ((element.options.filter (fun o => o.selected)).map (fun o => o.value)))
    else
      fsSet state memberName (.single element.value)
  else state

theorem fsFind_fsSet_self (st : FormState) (k : String) (v : FormValue) :
    fsFind (fsSet st k v) k = some v := by
  induction st with
  | nil => simp [fsSet, fsFind]
  | cons p rest ih =>
    obtain ⟨k0, v0⟩ := p
    by_cases h : k0 = k
    · simp [fsSet, fsFind, h]
    · simp [fsSet, fsFind, h, ih]

theorem objFind_stageFold (st : JSObj) (fields : JSObj) (pending : JSObj) (k : String) :
    objFind (stageFold st pending fields) k =
      (stagedVal st fields k).or (objFind pending k) := by
  induction fields generalizing pending with
  | nil => simp [stageFold, stagedVal]
  | cons kv rest ih =>
    obtain ⟨k', v⟩ := kv
    have hfold : stageFold st pending ((k', v) :: rest) =
        stageFold st (if jsStrictEq (objGet st k') v then pending else objSet pending k' v)
          rest := by
      by_cases hse : jsStrictEq (objGet st k') v = true <;> simp [stageFold, hse]
    rw [hfold, ih]
    by_cases hk : k' = k
    · subst hk
      by_cases hse : jsStrictEq (objGet st k') v = true
      · simp [stagedVal, hse]
      · simp [stagedVal, hse, objFind_objSet_self, Option.or_assoc]
    · by_cases hse : jsStrictEq (objGet st k') v = true
      · simp [stagedVal, hse, hk]
      · simp [stagedVal, hse, hk, objFind_objSet_ne _ _ _ _ hk]

theorem objFind_mergeFold (fields : JSObj) (st : JSObj) (k : String) :
    objFind (fields.foldl (fun acc kv => objSet acc kv.1 kv.2) st) k =
      (mergedVal fields k).or (objFind st k) := by
  induction fields generalizing st with
  | nil => simp [mergedVal]
  | cons kv rest ih =>
    obtain ⟨k', v⟩ := kv
    simp only [List.foldl_cons]
    rw [ih]
    by_cases hk : k' = k
    · subst hk
      simp [mergedVal, objFind_objSet_self, Option.or_assoc]
    · simp [mergedVal, hk, objFind_objSet_ne _ _ _ _ hk]

theorem objKeys_nodup_stageFold (st : JSObj) (fields : JSObj) (pending : JSObj)
    (h : (objKeys pending).Nodup) : (objKeys (stageFold st pending fields)).Nodup := by
  induction fields generalizing pending with
  | nil => simpa [stageFold]
  | cons kv rest ih =>
    obtain ⟨k', v⟩ := kv
    have hfold : stageFold st pending ((k', v) :: rest) =
        stageFold st (if jsStrictEq (objGet st k') v then pending else objSet pending k' v)
          rest := by
      by_cases hse : jsStrictEq (objGet st k') v = true <;> simp [stageFold, hse]
    rw [hfold]
    by_cases hse : jsStrictEq (objGet st k') v = true
    · simpa [hse] using ih pending h
    · simpa [hse] using ih (objSet pending k' v) (objKeys_nodup_objSet _ _ _ h)

theorem stateTimeoutApply_app_state (w : World) :
    (stateTimeoutApply w).app.state = w.app.state := by
  cases h : w.app.applierTimeout <;> simp [stateTimeoutApply, h]

theorem stateTimeoutApply_app_pending (w : World) :
    (stateTimeoutApply w).app.nextStateChanges = w.app.nextStateChanges := by
  cases h : w.app.applierTimeout <;> simp [stateTimeoutApply, h]

theorem stateTimeoutApply_app_handlers (w : World) :
    (stateTimeoutApply w).app.stateApplierFunctionMap = w.app.stateApplierFunctionMap := by
  cases h : w.app.applierTimeout <;> simp [stateTimeoutApply, h]

theorem applyState_obj_state (w : World) (c : JSObj) :
    ((w.applyState (.obj c)).1).app.state = w.app.state := by
  simp [World.applyState, stateTimeoutApply_app_state]

theorem applyState_obj_pending (w : World) (c : JSObj) :
    ((w.applyState (.obj c)).1).app.nextStateChanges =
      stageFold w.app.state w.app.nextStateChanges c := by
  simp [World.applyState, stateTimeoutApply_app_pending]

theorem applyState_obj_handlers (w : World) (c : JSObj) :
    ((w.applyState (.obj c)).1).app.stateApplierFunctionMap =
      w.app.stateApplierFunctionMap := by
  simp [World.applyState, stateTimeoutApply_app_handlers]

theorem applyCalls_state (w : World) (calls : List JSObj) :
    (applyCalls w calls).app.state = w.app.state := by
  induction calls generalizing w with
  | nil => rfl
  | cons c cs ih =>
    have hstep : applyCalls w (c :: cs) = applyCalls ((w.applyState (.obj c)).1) cs := by
      simp [applyCalls]
    rw [hstep, ih, applyState_obj_state]

theorem applyCalls_pending (w : World) (calls : List JSObj) (k : String) :
    objFind (applyCalls w calls).app.nextStateChanges k =
      (lastStaged w.app.state calls k).or (objFind w.app.nextStateChanges k) := by
  induction calls generalizing w with
  | nil => simp [applyCalls, lastStaged]
  | cons c cs ih =>
    have hstep : applyCalls w (c :: cs) = applyCalls ((w.applyState (.obj c)).1) cs := by
      simp [applyCalls]
    rw [hstep, ih, applyState_obj_state, applyState_obj_pending, objFind_stageFold]
    simp [lastStaged, Option.or_assoc]

theorem applyCalls_pending_nodup (w : World) (calls : List JSObj)
    (h : (objKeys w.app.nextStateChanges).Nodup) :
    (objKeys (applyCalls w calls).app.nextStateChanges).Nodup := by
  induction calls generalizing w with
  | nil => simpa [applyCalls]
  | cons c cs ih =>
    have hstep : applyCalls w (c :: cs) = applyCalls ((w.applyState (.obj c)).1) cs := by
      simp [applyCalls]
    rw [hstep]
    refine ih _ ?_
    rw [applyState_obj_pending]
    exact objKeys_nodup_stageFold _ _ _ h

theorem flushStep_handlers (acc : AppState × List Invocation) (kv : String × JSValue) :
    (flushStep acc kv).1.stateApplierFunctionMap = acc.1.stateApplierFunctionMap := by
  cases ht : (objGet acc.1.stateApplierFunctionMap kv.1).truthy <;> simp [flushStep, ht]

theorem flushStep_timeout (acc : AppState × List Invocation) (kv : String × JSValue) :
    (flushStep acc kv).1.applierTimeout = acc.1.applierTimeout := by
  cases ht : (objGet acc.1.stateApplierFunctionMap kv.1).truthy <;> simp [flushStep, ht]

theorem flushFold_handlers (pend : JSObj) (acc : AppState × List Invocation) :
    (pend.foldl flushStep acc).1.stateApplierFunctionMap = acc.1.stateApplierFunctionMap := by
  induction pend generalizing acc with
  | nil => rfl
  | cons kv rest ih =>
    simp only [List.foldl_cons]
    rw [ih, flushStep_handlers]

theorem flushFold_timeout (pend : JSObj) (acc : AppState × List Invocation) :
    (pend.foldl flushStep acc).1.applierTimeout = acc.1.applierTimeout := by
  induction pend generalizing acc with
  | nil => rfl
  | cons kv rest ih =>
    simp only [List.foldl_cons]
    rw [ih, flushStep_timeout]

theorem flushFold_state_not_mem (pend : JSObj) (acc : AppState × List Invocation)
    (k : String) (h : k ∉ objKeys pend) :
    objFind ((pend.foldl flushStep acc).1.state) k = objFind acc.1.state k := by
  induction pend generalizing acc with
  | nil => rfl
  | cons kv rest ih =>
    obtain ⟨k0, v0⟩ := kv
    simp only [objKeys, List.map_cons, List.mem_cons, not_or] at h
    have h2 : k ∉ objKeys rest := by simpa [objKeys] using h.2
    have hne : k0 ≠ k := fun hx => h.1 hx.symm
    simp only [List.foldl_cons]
    rw [ih _ h2]
    cases ht : (objGet acc.1.stateApplierFunctionMap k0).truthy <;>
      simp [flushStep, ht, objFind_objSet_ne _ _ _ _ hne]

theorem flushFold_find (pend : JSObj) (acc : AppState × List Invocation)
    (hnd : (objKeys pend).Nodup) (kv : String × JSValue) (hkv : kv ∈ pend) :
    objFind ((pend.foldl flushStep acc).1.state) kv.1 =
      if (objGet acc.1.stateApplierFunctionMap kv.1).truthy then some kv.2
      else objFind acc.1.state kv.1 := by
  induction pend generalizing acc with
  | nil => cases hkv
  | cons p rest ih =>
    obtain ⟨k0, v0⟩ := p
    have hnd' : k0 ∉ objKeys rest ∧ (objKeys rest).Nodup := by
      simpa [objKeys] using hnd
    rcases List.mem_cons.mp hkv with hkv0 | hkvrest
    · subst hkv0
      simp only [List.foldl_cons]
      rw [flushFold_state_not_mem rest _ k0 hnd'.1]
      cases ht : (objGet acc.1.stateApplierFunctionMap k0).truthy <;>
        simp [flushStep, ht, objFind_objSet_self]
    · have hk1 : kv.1 ∈ objKeys rest := List.mem_map_of_mem Prod.fst hkvrest
      have hne : k0 ≠ kv.1 := fun hx => hnd'.1 (hx ▸ hk1)
      simp only [List.foldl_cons]
      rw [ih _ hnd'.2 hkvrest]
      cases ht : (objGet acc.1.stateApplierFunctionMap k0).truthy <;>
        simp [flushStep, ht, objFind_objSet_ne _ _ _ _ hne]

theorem flushFold_trace (pend : JSObj) (a : AppState) (invs : List Invocation) :
    ∃ l, (pend.foldl flushStep (a, invs)).2 = invs ++ l ∧
      (l.map Invocation.key).Sublist (objKeys pend) := by
  induction pend generalizing a invs with
  | nil => exact ⟨[], by simp, by simp⟩
  | cons kv rest ih =>
    obtain ⟨k0, v0⟩ := kv
    simp only [List.foldl_cons]
    cases ht : (objGet a.stateApplierFunctionMap k0).truthy
    · have hstep : flushStep (a, invs) (k0, v0) = (a, invs) := by
        simp [flushStep, ht]
      rw [hstep]
      obtain ⟨l, h1, h2⟩ := ih a invs
      exact ⟨l, h1, h2.trans (List.sublist_cons_self k0 (objKeys rest))⟩
    · have hstep : flushStep (a, invs) (k0, v0) =
          ({ a with state := objSet a.state k0 v0 },
           invs ++ [⟨k0, v0, objGet a.state k0⟩]) := by
        simp [flushStep, ht]
      rw [hstep]
      obtain ⟨l, h1, h2⟩ :=
        ih { a with state := objSet a.state k0 v0 } (invs ++ [⟨k0, v0, objGet a.state k0⟩])
      refine ⟨⟨k0, v0, objGet a.state k0⟩ :: l, by simpa using h1, ?_⟩
      simpa [objKeys] using List.Sublist.cons₂ k0 h2

theorem flushBody_pending (a : AppState) : (flushBody a).1.nextStateChanges = [] := by
  simp [flushBody]

theorem flushBody_handlers (a : AppState) :
    (flushBody a).1.stateApplierFunctionMap = a.stateApplierFunctionMap := by
  simp [flushBody, flushFold_handlers]

theorem flushBody_timeout (a : AppState) :
    (flushBody a).1.applierTimeout = a.applierTimeout := by
  simp [flushBody, flushFold_timeout]

theorem flushBody_find (a : AppState) (hnd : (objKeys a.nextStateChanges).Nodup)
    (kv : String × JSValue) (hkv : kv ∈ a.nextStateChanges) :
    objFind (flushBody a).1.state kv.1 =
      if (objGet a.stateApplierFunctionMap kv.1).truthy then some kv.2
      else objFind a.state kv.1 := by
  have h := flushFold_find a.nextStateChanges (a, []) hnd kv hkv
  simpa [flushBody] using h

theorem flushBody_trace_keys (a : AppState) :
    ((flushBody a).2.map Invocation.key).Sublist (objKeys a.nextStateChanges) := by
  obtain ⟨l, h1, h2⟩ := flushFold_trace a.nextStateChanges a []
  simpa [flushBody, h1] using h2

theorem schedInv_components (w w' : World)
    (h1 : w'.app.applierTimeout = w.app.applierTimeout)
    (h2 : w'.live = w.live) (h3 : w'.nextToken = w.nextToken) :
    SchedInv w' = SchedInv w := by
  simp [SchedInv, timeoutFresh, liveMatchesTimeout, h1, h2, h3]

theorem schedInv_stateTimeoutApply (w : World) (h : SchedInv w = true) :
    SchedInv (stateTimeoutApply w) = true := by
  rcases w with ⟨⟨m1, m2, st, pend, tmo⟩, live, tok⟩
  simp only [SchedInv, timeoutFresh, liveMatchesTimeout, Bool.and_eq_true] at h
  cases tmo with
  | none =>
    cases live with
    | nil =>
      simp [stateTimeoutApply, SchedInv, timeoutFresh, liveMatchesTimeout]
    | cons t0 rest =>
      cases rest with
      | nil => simp at h
      | cons t1 rest' => simp at h
  | some t =>
    have hlt : t < tok := by
      simpa using h.1
    cases live with
    | nil =>
      simp [stateTimeoutApply, SchedInv, timeoutFresh, liveMatchesTimeout]
    | cons t0 rest =>
      cases rest with
      | nil =>
        have ht0 : t = t0 := by simpa using h.2
        subst ht0
        simp [stateTimeoutApply, SchedInv, timeoutFresh, liveMatchesTimeout]
      | cons t1 rest' => simp at h

theorem schedInv_fireTimer (w : World) (t : Nat) (h : SchedInv w = true) :
    SchedInv (fireTimer w t).1 = true := by
  by_cases hc : t ∈ w.live
  · rcases w with ⟨app, live, tok⟩
    simp only [SchedInv, timeoutFresh, liveMatchesTimeout, Bool.and_eq_true] at h
    cases live with
    | nil => simp at hc
    | cons t0 rest =>
      cases rest with
      | nil =>
        have ht0 : t = t0 := by simpa using hc
        subst ht0
        have hto : app.applierTimeout = some t := by
          have h2 := h.2
          cases hx : app.applierTimeout with
          | none => rw [hx] at h2; simp at h2
          | some u =>
            rw [hx] at h2
            have : u = t := by simpa using h2
            rw [this]
        have hlt : t < tok := by
          have h1 := h.1
          rw [hto] at h1
          simpa using h1
        simp [fireTimer, hc, SchedInv, timeoutFresh, liveMatchesTimeout,
          flushBody_timeout, hto, hlt]
      | cons t1 rest' => simp at h
  · simp [fireTimer, hc, h]

theorem schedInv_stepI (w : World) (op : Op) (h : SchedInv w = true) :
    SchedInv (stepI w op).1 = true := by
  cases op with
  | applyOp arg =>
    cases arg with
    | obj fields =>
      have hpre : SchedInv { w with app := { w.app with
          nextStateChanges := stageFold w.app.state w.app.nextStateChanges fields } } =
          SchedInv w := schedInv_components _ _ rfl rfl rfl
      have := schedInv_stateTimeoutApply { w with app := { w.app with
          nextStateChanges := stageFold w.app.state w.app.nextStateChanges fields } }
        (by rw [hpre]; exact h)
      simpa [stepI, World.applyState] using this
    | arr elems => simpa [stepI, World.applyState] using h
    | strA s => simpa [stepI, World.applyState] using h
    | numA n => simpa [stepI, World.applyState] using h
    | nanA => simpa [stepI, World.applyState] using h
    | boolA b => simpa [stepI, World.applyState] using h
    | nullA => simpa [stepI, World.applyState] using h
    | undefA => simpa [stepI, World.applyState] using h
    | funcA id => simpa [stepI, World.applyState] using h
  | touchOp names =>
    have hpre : SchedInv { w with app := { w.app with
        nextStateChanges := touchFold w.app.stateApplierFunctionMap w.app.state
          w.app.nextStateChanges names } } = SchedInv w :=
      schedInv_components _ _ rfl rfl rfl
    have := schedInv_stateTimeoutApply { w with app := { w.app with
        nextStateChanges := touchFold w.app.stateApplierFunctionMap w.app.state
          w.app.nextStateChanges names } }
      (by rw [hpre]; exact h)
    simpa [stepI, World.touchState] using this
  | setOp arg =>
    cases arg with
    | obj fields =>
      have : SchedInv (stepI w (.setOp (.obj fields))).1 = SchedInv w := by
        apply schedInv_components <;> simp [stepI, World.setState]
      rw [this]; exact h
    | arr elems => simpa [stepI, World.setState] using h
    | strA s => simpa [stepI, World.setState] using h
    | numA n => simpa [stepI, World.setState] using h
    | nanA => simpa [stepI, World.setState] using h
    | boolA b => simpa [stepI, World.setState] using h
    | nullA => simpa [stepI, World.setState] using h
    | undefA => simpa [stepI, World.setState] using h
    | funcA id => simpa [stepI, World.setState] using h
  | addHandlerOp name func =>
    have : SchedInv (stepI w (.addHandlerOp name func)).1 = SchedInv w := by
      apply schedInv_components <;> simp [stepI, AppState.addHandler]
    rw [this]; exact h
  | removeHandlerOp name =>
    have : SchedInv (stepI w (.removeHandlerOp name)).1 = SchedInv w := by
      apply schedInv_components <;> simp [stepI, AppState.removeHandler]
    rw [this]; exact h
  | fireOp t => exact schedInv_fireTimer w t h

theorem schedInv_runOps (w : World) (ops : List Op) (h : SchedInv w = true) :
    SchedInv (runOps w ops) = true := by
  induction ops generalizing w with
  | nil => exact h
  | cons op rest ih =>
    have hstep : runOps w (op :: rest) = runOps (stepI w op).1 rest := by
      simp [runOps]
    rw [hstep]
    exact ih _ (schedInv_stepI w op h)

theorem live_length_le_one_of_schedInv (w : World) (h : SchedInv w = true) :
    w.live.length ≤ 1 := by
  simp only [SchedInv, liveMatchesTimeout, Bool.and_eq_true] at h
  cases hl : w.live with
  | nil => simp
  | cons t0 rest =>
    cases rest with
    | nil => simp
    | cons t1 rest' => rw [hl] at h; simp at h

theorem stateTimeoutApply_timeout_eq (w : World) :
    (stateTimeoutApply w).app.applierTimeout = some w.nextToken := by
  cases h : w.app.applierTimeout <;> simp [stateTimeoutApply, h]

theorem stateTimeoutApply_token_mem (w : World) :
    w.nextToken ∈ (stateTimeoutApply w).live := by
  cases h : w.app.applierTimeout <;> simp [stateTimeoutApply, h]

theorem stateTimeoutApply_live_of_nil (w : World) (h : w.live = []) :
    (stateTimeoutApply w).live = [w.nextToken] := by
  cases hx : w.app.applierTimeout <;> simp [stateTimeoutApply, hx, h]

theorem stateTimeoutApply_live_of_inv (w : World) (h : SchedInv w = true) :
    (stateTimeoutApply w).live = [w.nextToken] := by
  rcases w with ⟨⟨m1, m2, st, pend, tmo⟩, live, tok⟩
  simp only [SchedInv, timeoutFresh, liveMatchesTimeout, Bool.and_eq_true] at h
  cases tmo with
  | none =>
    cases live with
    | nil => simp [stateTimeoutApply]
    | cons t0 rest =>
      cases rest with
      | nil => simp at h
      | cons t1 rest' => simp at h
  | some t =>
    cases live with
    | nil => simp [stateTimeoutApply]
    | cons t0 rest =>
      cases rest with
      | nil =>
        have ht0 : t = t0 := by simpa using h.2
        subst ht0
        simp [stateTimeoutApply]
      | cons t1 rest' => simp at h

theorem stageFold_id (st : JSObj) (pending : JSObj) (fields : JSObj)
    (h : ∀ kv ∈ fields, jsStrictEq (objGet st kv.1) kv.2 = true) :
    stageFold st pending fields = pending := by
  induction fields generalizing pending with
  | nil => rfl
  | cons kv rest ih =>
    obtain ⟨k', v⟩ := kv
    have hse : jsStrictEq (objGet st k') v = true := h (k', v) (List.mem_cons_self _ _)
    have hfold : stageFold st pending ((k', v) :: rest) = stageFold st pending rest := by
      simp [stageFold, hse]
    rw [hfold]
    exact ih pending (fun kv hkv => h kv (List.mem_cons_of_mem _ hkv))

theorem jsStrictEq_self (v : JSValue) (h : v ≠ .nan) : jsStrictEq v v = true := by
  cases v <;> simp_all [jsStrictEq]

theorem touchFold_not_truthy (registry st : JSObj) (pending : JSObj)
    (names : List String) (m : String)
    (hm : (objGet registry m).truthy = false) :
    objFind (touchFold registry st pending names) m = objFind pending m := by
  induction names generalizing pending with
  | nil => rfl
  | cons n rest ih =>
    by_cases hn : (objGet registry n).truthy = true
    · have hne : n ≠ m := by
        intro hx
        rw [hx, hm] at hn
        cases hn
      have hfold : touchFold registry st pending (n :: rest) =
          touchFold registry st (objSet pending n (objGet st n)) rest := by
        simp [touchFold, hn]
      rw [hfold, ih _, objFind_objSet_ne _ _ _ _ hne]
    · have hfold : touchFold registry st pending (n :: rest) =
          touchFold registry st pending rest := by
        simp [touchFold, hn]
      rw [hfold, ih _]

theorem touchState_pending (w : World) (names : List String) :
    (w.touchState names).app.nextStateChanges =
      touchFold w.app.stateApplierFunctionMap w.app.state
        w.app.nextStateChanges names := by
  simp [World.touchState, stateTimeoutApply_app_pending]

theorem touchState_state (w : World) (names : List String) :
    (w.touchState names).app.state = w.app.state := by
  simp [World.touchState, stateTimeoutApply_app_state]

theorem touchState_handlers (w : World) (names : List String) :
    (w.touchState names).app.stateApplierFunctionMap =
      w.app.stateApplierFunctionMap := by
  simp [World.touchState, stateTimeoutApply_app_handlers]

theorem foldl_addHandler (fields : JSObj) (a : AppState) :
    fields.foldl (fun a p => a.addHandler p.1 p.2) a =
      { a with stateApplierFunctionMap :=
          fields.foldl (fun m p => addHandlerMap m p.1 p.2) a.stateApplierFunctionMap } := by
  induction fields generalizing a with
  | nil => rfl
  | cons p rest ih =>
    simp only [List.foldl_cons]
    rw [ih]
    rfl

/-- C1: for every `AppState` store and every sequence of `applyState`
calls made within one turn (no flush fires in between, so the committed
state is constant), each key has at most one entry in the pending-change
buffer (`nextStateChanges`), that entry holds the value staged by the last
`applyState` call that staged the key, and the single resulting flush
invokes each key's registered handler at most once (the invocation trace
has no repeated key). -/
theorem applyState_coalesces (w : World) (calls : List JSObj)
    (hpend : w.app.nextStateChanges = []) :
    (objKeys (applyCalls w calls).app.nextStateChanges).Nodup ∧
    (∀ k, objFind (applyCalls w calls).app.nextStateChanges k =
      lastStaged w.app.state calls k) ∧
    (∀ t, (((fireTimer (applyCalls w calls) t).2).map Invocation.key).Nodup) := by
  have hnd : (objKeys (applyCalls w calls).app.nextStateChanges).Nodup := by
    apply applyCalls_pending_nodup
    rw [hpend]
    exact List.nodup_nil
  refine ⟨hnd, ?_, ?_⟩
  · intro k
    rw [applyCalls_pending, hpend]
    simp [objFind]
  · intro t
    by_cases ht : t ∈ (applyCalls w calls).live
    · have heq : (fireTimer (applyCalls w calls) t).2 =
          (flushBody (applyCalls w calls).app).2 := by
        simp [fireTimer, ht]
      rw [heq]
      exact (flushBody_trace_keys (applyCalls w calls).app).nodup hnd
    · simp [fireTimer, ht]

/-- A store whose committed state already holds `a === 1`, with a handler
registered for `a`, idle (nothing pending, nothing scheduled). -/
def unchangedApplyW : World :=
  { app := { stateApplierFunctionMap := [("a", .func 0)]
             changeVerifierMap := []
             state := [("a", .num 1)]
             nextStateChanges := []
             applierTimeout := none }
    live := []
    nextToken := 0 }

theorem applyState_coalesces_witness :
    unchangedApplyW.app.nextStateChanges = [] ∧
    objFind (applyCalls unchangedApplyW
        [[("a", .num 1), ("b", .num 2)], [("a", .num 3)]]).app.nextStateChanges "a" =
      lastStaged unchangedApplyW.app.state
        [[("a", .num 1), ("b", .num 2)], [("a", .num 3)]] "a" ∧
    (((fireTimer (applyCalls unchangedApplyW
        [[("a", .num 1), ("b", .num 2)], [("a", .num 3)]]) 1).2).map Invocation.key).Nodup := by
  refine ⟨rfl, ?_, ?_⟩
  · exact (applyState_coalesces unchangedApplyW
      [[("a", .num 1), ("b", .num 2)], [("a", .num 3)]] rfl).2.1 "a"
  · exact (applyState_coalesces unchangedApplyW
      [[("a", .num 1), ("b", .num 2)], [("a", .num 3)]] rfl).2.2 1

/-- C2 counterexample: with `currentState.a === 1` already, the call
`applyState({a: 1})` stages nothing, yet it still arms a deferred flush
(the timeout token list goes from empty to nonempty and `applierTimeout`
is set), contradicting the claim's "does not arm (or re-arm) a deferred
flush". -/
theorem applyState_unchanged_arms_cex :
    jsStrictEq (objGet unchangedApplyW.app.state "a") (.num 1) = true ∧
    (unchangedApplyW.applyState (.obj [("a", .num 1)])).1.app.nextStateChanges = [] ∧
    ¬ (unchangedApplyW.applyState (.obj [("a", .num 1)])).1.live = [] ∧
    (unchangedApplyW.applyState (.obj [("a", .num 1)])).1.app.applierTimeout ≠ none := by
  decide

/-- C2 (amended): when every key of the argument is strictly equal to its
committed value, `applyState` stages nothing into the pending-change
buffer; however the call still unconditionally (re)arms the deferred
flush — `_STATETIMEOUTAPPLY` runs on every plain-object argument, so a
fresh timeout is scheduled even though no key changed. -/
theorem applyState_unchanged_still_arms (w : World) (fields : JSObj)
    (h : ∀ kv ∈ fields, jsStrictEq (objGet w.app.state kv.1) kv.2 = true) :
    (w.applyState (.obj fields)).1.app.nextStateChanges = w.app.nextStateChanges ∧
    (w.applyState (.obj fields)).1.app.applierTimeout = some w.nextToken ∧
    w.nextToken ∈ (w.applyState (.obj fields)).1.live := by
  have heq : (w.applyState (.obj fields)).1 =
      stateTimeoutApply { w with app := { w.app with
        nextStateChanges := stageFold w.app.state w.app.nextStateChanges fields } } := rfl
  refine ⟨?_, ?_, ?_⟩
  · rw [applyState_obj_pending, stageFold_id _ _ _ h]
  · rw [heq, stateTimeoutApply_timeout_eq]
  · rw [heq]
    exact stateTimeoutApply_token_mem _

theorem applyState_unchanged_still_arms_witness :
    jsStrictEq (objGet unchangedApplyW.app.state "a") (.num 1) = true ∧
    (unchangedApplyW.applyState (.obj [("a", .num 1)])).1.app.nextStateChanges =
      unchangedApplyW.app.nextStateChanges ∧
    0 ∈ (unchangedApplyW.applyState (.obj [("a", .num 1)])).1.live := by
  have h := applyState_unchanged_still_arms unchangedApplyW [("a", .num 1)] (by decide)
  exact ⟨by decide, h.1, h.2.2⟩

/-- C3: when a scheduled flush fires, every pending key with a registered
handler is committed to `currentState` with its staged value, the
pending-change buffer is empty afterwards, and a pending key with no
registered handler leaves its committed entry untouched (in particular a
key absent from `currentState` never appears in it through the flush
path). -/
theorem flush_commits_and_clears (w : World) (t : Nat) (ht : t ∈ w.live)
    (hnd : (objKeys w.app.nextStateChanges).Nodup) :
    (fireTimer w t).1.app.nextStateChanges = [] ∧
    (∀ kv ∈ w.app.nextStateChanges,
      (objGet w.app.stateApplierFunctionMap kv.1).truthy = true →
        objFind (fireTimer w t).1.app.state kv.1 = some kv.2) ∧
    (∀ kv ∈ w.app.nextStateChanges,
      (objGet w.app.stateApplierFunctionMap kv.1).truthy = false →
        objFind (fireTimer w t).1.app.state kv.1 = objFind w.app.state kv.1) := by
  have happ : (fireTimer w t).1.app = (flushBody w.app).1 := by
    simp [fireTimer, ht]
  refine ⟨?_, ?_, ?_⟩
  · rw [happ, flushBody_pending]
  · intro kv hkv htr
    rw [happ, flushBody_find w.app hnd kv hkv, htr]
    simp
  · intro kv hkv htr
    rw [happ, flushBody_find w.app hnd kv hkv, htr]
    simp

/-- A store with a handler for `a` only, a two-key pending buffer
(`a ↦ 1`, `z ↦ 5`), an empty committed state, and its flush scheduled as
token 0. -/
def flushW : World :=
  { app := { stateApplierFunctionMap := [("a", .func 0)]
             changeVerifierMap := []
             state := []
             nextStateChanges := [("a", .num 1), ("z", .num 5)]
             applierTimeout := some 0 }
    live := [0]
    nextToken := 1 }

theorem flush_commits_and_clears_witness :
    (0 ∈ flushW.live) ∧
    (fireTimer flushW 0).1.app.nextStateChanges = [] ∧
    objFind (fireTimer flushW 0).1.app.state "a" = some (.num 1) ∧
    objFind (fireTimer flushW 0).1.app.state "z" = objFind flushW.app.state "z" := by
  have h := flush_commits_and_clears flushW 0 (by decide) (by decide)
  exact ⟨by decide, h.1,
    h.2.1 ("a", .num 1) (by decide) (by decide),
    h.2.2 ("z", .num 5) (by decide) (by decide)⟩

/-- C4: starting from any store satisfying the scheduler invariant (as a
freshly constructed store does), every interleaving of operations
preserves it, so at most one scheduled flush is outstanding at any time;
an `applyState` call always leaves exactly the one fresh timeout live
(cancelling the previous one: the token remembered in `applierTimeout` is
no longer live after the rearm), and firing a token that is not live — a
cancelled flush — is a complete no-op, so exactly one flush executes per
dirty episode. -/
theorem single_outstanding_flush (w : World) (hw : SchedInv w = true) (ops : List Op) :
    SchedInv (runOps w ops) = true ∧
    (runOps w ops).live.length ≤ 1 ∧
    (∀ fields, ((w.applyState (.obj fields)).1).live = [w.nextToken]) ∧
    (∀ t, w.app.applierTimeout = some t → t ∉ (stateTimeoutApply w).live) ∧
    (∀ t, t ∉ w.live → fireTimer w t = (w, [])) := by
  have hrun := schedInv_runOps w ops hw
  refine ⟨hrun, live_length_le_one_of_schedInv _ hrun, ?_, ?_, ?_⟩
  · intro fields
    have heq : (w.applyState (.obj fields)).1 =
        stateTimeoutApply { w with app := { w.app with
          nextStateChanges := stageFold w.app.state w.app.nextStateChanges fields } } := rfl
    rw [heq]
    exact stateTimeoutApply_live_of_inv _
      ((schedInv_components _ w rfl rfl rfl).trans hw)
  · intro t htm hmem
    have hlt : t < w.nextToken := by
      have h1 : timeoutFresh w = true := by
        have := hw
        simp only [SchedInv, Bool.and_eq_true] at this
        exact this.1
      rw [timeoutFresh, htm] at h1
      simpa using h1
    rw [stateTimeoutApply, htm] at hmem
    simp only [List.mem_append, List.mem_filter, List.mem_singleton] at hmem
    rcases hmem with ⟨_, hne⟩ | hfr
    · simp at hne
    · omega
  · intro t htm
    simp [fireTimer, htm]

/-- An idle store satisfying the scheduler invariant, with one handler. -/
def schedW : World :=
  { app := { stateApplierFunctionMap := [("a", .func 0)]
             changeVerifierMap := []
             state := []
             nextStateChanges := []
             applierTimeout := none }
    live := []
    nextToken := 0 }

theorem single_outstanding_flush_witness :
    SchedInv schedW = true ∧
    (runOps schedW
      [.applyOp (.obj [("a", .num 1)]), .applyOp (.obj [("a", .num 2)]),
       .fireOp 0, .fireOp 1]).live.length ≤ 1 ∧
    ((schedW.applyState (.obj [("a", .num 1)])).1).live = [0] := by
  have h := single_outstanding_flush schedW (by decide)
    [.applyOp (.obj [("a", .num 1)]), .applyOp (.obj [("a", .num 2)]),
     .fireOp 0, .fireOp 1]
  exact ⟨by decide, h.2.1, h.2.2.1 [("a", .num 1)]⟩

/-- A store whose committed `a` is `NaN`, with a handler for `a`, idle. -/
def touchNanW : World :=
  { app := { stateApplierFunctionMap := [("a", .func 0)]
             changeVerifierMap := []
             state := [("a", .nan)]
             nextStateChanges := []
             applierTimeout := none }
    live := []
    nextToken := 0 }

/-- C5 counterexample: `touchState('a')` on a member whose committed value
is `NaN` stages it and the flush invokes the handler with
`(NaN, NaN)` — the new value is **not** strictly equal to the old one
(`NaN !== NaN`), contradicting the claim's "newValue strictly equal to
oldValue". -/
theorem touchState_nan_cex :
    (fireTimer (touchNanW.touchState ["a"]) 0).2 = [⟨"a", .nan, .nan⟩] ∧
    jsStrictEq .nan .nan = false := by
  decide

/-- C5 (amended): `touchState(name)` on a member with a registered handler
stages the current committed value unchanged, and the resulting flush
invokes that member's handler with `newValue` and `oldValue` both equal to
that committed value — strictly equal whenever the value is not `NaN`
(for a `NaN` member both arguments are `NaN`, which are not strictly
equal); a name without a registered handler is never staged by
`touchState`. -/
theorem touchState_forces_notification (w : World) (n : String)
    (hh : (objGet w.app.stateApplierFunctionMap n).truthy = true)
    (hp : w.app.nextStateChanges = [])
    (hl : w.live = []) :
    objFind (w.touchState [n]).app.nextStateChanges n =
      some (objGet w.app.state n) ∧
    (w.touchState [n]).live = [w.nextToken] ∧
    (fireTimer (w.touchState [n]) w.nextToken).2 =
      [⟨n, objGet w.app.state n, objGet w.app.state n⟩] ∧
    (objGet w.app.state n ≠ .nan →
      jsStrictEq (objGet w.app.state n) (objGet w.app.state n) = true) ∧
    (∀ names m, (objGet w.app.stateApplierFunctionMap m).truthy = false →
      objFind (w.touchState names).app.nextStateChanges m =
        objFind w.app.nextStateChanges m) := by
  have hch : touchFold w.app.stateApplierFunctionMap w.app.state
      w.app.nextStateChanges [n] = [(n, objGet w.app.state n)] := by
    simp [touchFold, hh, hp, objSet]
  have hpend : (w.touchState [n]).app.nextStateChanges =
      [(n, objGet w.app.state n)] := by
    rw [touchState_pending, hch]
  have hlive : (w.touchState [n]).live = [w.nextToken] := by
    have : (w.touchState [n]) = stateTimeoutApply { w with app := { w.app with
        nextStateChanges := touchFold w.app.stateApplierFunctionMap w.app.state
          w.app.nextStateChanges [n] } } := rfl
    rw [this]
    exact stateTimeoutApply_live_of_nil _ hl
  refine ⟨?_, hlive, ?_, ?_, ?_⟩
  · rw [hpend]
    simp [objFind]
  · have hmem : w.nextToken ∈ (w.touchState [n]).live := by
      rw [hlive]
      exact List.mem_singleton.mpr rfl
    have htr : (fireTimer (w.touchState [n]) w.nextToken).2 =
        (flushBody (w.touchState [n]).app).2 := by
      simp [fireTimer, hmem]
    rw [htr]
    have hreg : (w.touchState [n]).app.stateApplierFunctionMap =
        w.app.stateApplierFunctionMap := touchState_handlers w [n]
    have hst : (w.touchState [n]).app.state = w.app.state := touchState_state w [n]
    simp [flushBody, hpend, flushStep, hreg, hst, hh]
  · intro hnn
    exact jsStrictEq_self _ hnn
  · intro names m hm
    rw [touchState_pending]
    exact touchFold_not_truthy _ _ _ names m hm

theorem touchState_forces_notification_witness :
    (objGet unchangedApplyW.app.stateApplierFunctionMap "a").truthy = true ∧
    objFind (unchangedApplyW.touchState ["a"]).app.nextStateChanges "a" =
      some (objGet unchangedApplyW.app.state "a") ∧
    (fireTimer (unchangedApplyW.touchState ["a"]) 0).2 =
      [⟨"a", objGet unchangedApplyW.app.state "a",
        objGet unchangedApplyW.app.state "a"⟩] ∧
    objFind (unchangedApplyW.touchState ["b"]).app.nextStateChanges "b" =
      objFind unchangedApplyW.app.nextStateChanges "b" := by
  have h := touchState_forces_notification unchangedApplyW "a"
    (by decide) rfl rfl
  exact ⟨by decide, h.1, h.2.2.1, h.2.2.2.2 ["b"] "b" (by decide)⟩

/-- C6: constructing an `AppState` with any argument that is not a plain
mapping (array, string, null, undefined, number, function, ...) throws
synchronously — the model returns `Except.error` before any instance
field is set up or any handler registered — while constructing with a
plain mapping succeeds with empty committed state, empty pending-change
buffer, no scheduled flush, and a handler registry equal to folding
`addHandler` over the entries of the argument. -/
theorem construct_guard (arg : JSArg) :
    (arg.isObject = false →
      AppState.construct arg = .error "Expected object for state applier.") ∧
    (∀ fields, arg = .obj fields →
      AppState.construct arg = .ok
        { stateApplierFunctionMap :=
            fields.foldl (fun m p => addHandlerMap m p.1 p.2) []
          changeVerifierMap := []
          state := []
          nextStateChanges := []
          applierTimeout := none }) := by
  constructor
  · intro h
    cases arg with
    | obj fields => simp [JSArg.isObject] at h
    | arr elems => rfl
    | strA s => rfl
    | numA n => rfl
    | nanA => rfl
    | boolA b => rfl
    | nullA => rfl
    | undefA => rfl
    | funcA id => rfl
  · intro fields hf
    subst hf
    simp [AppState.construct, foldl_addHandler]

theorem construct_guard_witness :
    (JSArg.arr []).isObject = false ∧
    AppState.construct (.arr []) = .error "Expected object for state applier." ∧
    AppState.construct (.obj [("a", .func 0)]) = .ok
      { stateApplierFunctionMap := [("a", .func 0)]
        changeVerifierMap := []
        state := []
        nextStateChanges := []
        applierTimeout := none } := by
  refine ⟨rfl, (construct_guard (.arr [])).1 rfl, ?_⟩
  have hreg : List.foldl (fun m p => addHandlerMap m p.1 p.2) ([] : JSObj)
      [("a", JSValue.func 0)] = [("a", JSValue.func 0)] := by decide
  exact ((construct_guard (.obj [("a", .func 0)])).2 [("a", .func 0)] rfl).trans
    (by rw [hreg])

/-- C7: `setState` with a plain-mapping argument merges every key of the
argument directly into the committed state (per key: the argument's value
when present, the previous committed value otherwise) and changes nothing
else — handler registry, pending-change buffer, `applierTimeout`, live
timeouts and the token counter are untouched, and no handler invocation is
produced; with a non-mapping argument `setState` leaves the entire store
unchanged (and returns undefined, the `false` flag). -/
theorem setState_merges (w : World) (arg : JSArg) :
    (∀ fields, arg = .obj fields →
      (∀ k, objFind (w.setState arg).1.app.state k =
        (mergedVal fields k).or (objFind w.app.state k)) ∧
      (w.setState arg).2 = true) ∧
    ((w.setState arg).1.app.stateApplierFunctionMap = w.app.stateApplierFunctionMap ∧
     (w.setState arg).1.app.nextStateChanges = w.app.nextStateChanges ∧
     (w.setState arg).1.app.applierTimeout = w.app.applierTimeout ∧
     (w.setState arg).1.live = w.live ∧
     (w.setState arg).1.nextToken = w.nextToken) ∧
    (stepI w (.setOp arg)).2 = [] ∧
    (arg.isObject = false → w.setState arg = (w, false)) := by
  refine ⟨?_, ?_, ?_, ?_⟩
  · intro fields hf
    subst hf
    exact ⟨fun k => objFind_mergeFold fields w.app.state k, rfl⟩
  · cases arg <;> exact ⟨rfl, rfl, rfl, rfl, rfl⟩
  · cases arg <;> rfl
  · intro h
    cases arg with
    | obj fields => simp [JSArg.isObject] at h
    | arr elems => rfl
    | strA s => rfl
    | numA n => rfl
    | nanA => rfl
    | boolA b => rfl
    | nullA => rfl
    | undefA => rfl
    | funcA id => rfl

theorem setState_merges_witness :
    objFind ((unchangedApplyW.setState (.obj [("b", .num 7)])).1.app.state) "b" =
      (mergedVal [("b", .num 7)] "b").or (objFind unchangedApplyW.app.state "b") ∧
    (unchangedApplyW.setState (.obj [("b", .num 7)])).1.live = unchangedApplyW.live ∧
    (JSArg.strA "x").isObject = false ∧
    unchangedApplyW.setState (.strA "x") = (unchangedApplyW, false) := by
  refine ⟨?_, ?_, rfl, ?_⟩
  · exact ((setState_merges unchangedApplyW (.obj [("b", .num 7)])).1
      [("b", .num 7)] rfl).1 "b"
  · exact (setState_merges unchangedApplyW (.obj [("b", .num 7)])).2.1.2.2.2.1
  · exact (setState_merges unchangedApplyW (.strA "x")).2.2.2 rfl

/-- C8: on a `change` event of a multiple-select field (truthy `name` and
`multiple` attributes), `SELECTEVENT` writes under the field's name the
sequence of the `value`s (not labels) of exactly the currently selected
options, in document order: the written list is the selected-option
values in order, it is a sublist of the full option-value sequence
(order preserved), every written value comes from a selected option, and
every selected option's value is written. -/
theorem multiselect_extraction (st : FormState) (e : SelectElement) (n : String)
    (hn : e.nameAttr = some n) (hne : n ≠ "")
    (hm : attrTruthy e.multipleAttr = true) :
    fsFind (SELECTEVENT st e) n =
      some (.multi ((e.options.filter (fun o => o.selected)).map (fun o => o.value))) ∧
    ((e.options.filter (fun o => o.selected)).map (fun o => o.value)).Sublist
      (e.options.map (fun o => o.value)) ∧
    (∀ v ∈ (e.options.filter (fun o => o.selected)).map (fun o => o.value),
      ∃ o ∈ e.options, o.selected = true ∧ o.value = v) ∧
    (∀ o ∈ e.options, o.selected = true →
      o.value ∈ (e.options.filter (fun o => o.selected)).map (fun o => o.value)) := by
  have htn : attrTruthy e.nameAttr = true := by
    simp [attrTruthy, hn, hne]
  have htn' : attrTruthy (some n) = true := by
    simp [attrTruthy, hne]
  refine ⟨?_, ?_, ?_, ?_⟩
  · simp [SELECTEVENT, htn, htn', hm, hn, fsFind_fsSet_self]
  · exact List.Sublist.map _ (List.filter_sublist _)
  · intro v hv
    simp only [List.mem_map, List.mem_filter] at hv
    obtain ⟨o, ⟨ho, hos⟩, hov⟩ := hv
    exact ⟨o, ho, hos, hov⟩
  · intro o ho hos
    exact List.mem_map_of_mem _ (List.mem_filter.mpr ⟨ho, hos⟩)

/-- A multiple-select named `field` with options `x`, `y`, `z` in document
order, of which `y` and `z` are selected; labels differ from values. -/
def selElem : SelectElement :=
  { nameAttr := some "field"
    multipleAttr := some "multiple"
    options := [⟨"x", "Label X", false⟩, ⟨"y", "Label Y", true⟩, ⟨"z", "Label Z", true⟩]
    value := "y" }

theorem multiselect_extraction_witness :
    selElem.nameAttr = some "field" ∧
    attrTruthy selElem.multipleAttr = true ∧
    fsFind (SELECTEVENT [] selElem) "field" = some (.multi ["y", "z"]) := by
  have h := multiselect_extraction [] selElem "field" rfl (by decide) (by decide)
  refine ⟨rfl, by decide, ?_⟩
  rw [h.1]
  decide

/-- C9: `setState` and `applyState` return `this` (flag `true`, enabling
chaining) exactly when the argument is a plain mapping, and return
undefined (flag `false`) on the silent no-op branch taken for every
non-mapping argument. -/
theorem returns_this_iff_object (w : World) (arg : JSArg) :
    (w.setState arg).2 = arg.isObject ∧ (w.applyState arg).2 = arg.isObject := by
  cases arg <;> exact ⟨rfl, rfl⟩

/-- C10: `addHandler(name, v)` with `v` neither callable nor null nor
undefined (a string, a number, a boolean, NaN, a non-function reference)
leaves the whole instance — in particular the handler registry —
completely unchanged: it neither registers `v` nor removes an existing
handler for `name`. -/
theorem addHandler_ignores_non_function (a : AppState) (name : String) (v : JSValue)
    (h1 : v.isFunction = false) (h2 : v.isNull = false) (h3 : v.isUndefined = false) :
    a.addHandler name v = a := by
  cases v <;>
    simp_all [AppState.addHandler, addHandlerMap, JSValue.isFunction,
      JSValue.isNull, JSValue.isUndefined]

/-- An instance with an existing handler registered for `a`. -/
def registryA : AppState :=
  { stateApplierFunctionMap := [("a", .func 7)]
    changeVerifierMap := []
    state := []
    nextStateChanges := []
    applierTimeout := none }

theorem addHandler_ignores_non_function_witness :
    (JSValue.str "x").isFunction = false ∧
    registryA.addHandler "a" (.str "x") = registryA ∧
    objFind (registryA.addHandler "a" (.str "x")).stateApplierFunctionMap "a" =
      some (.func 7) := by
  refine ⟨rfl, addHandler_ignores_non_function registryA "a" (.str "x") rfl rfl rfl, ?_⟩
  rw [addHandler_ignores_non_function registryA "a" (.str "x") rfl rfl rfl]
  decide
